import Mathlib

/-
Verification of the incremental citation-resolving streaming pipeline
(newsrag/generator.py and the streaming part of newsrag/pipelines.py).

Text is modelled as `List Char`; the haystack `Document` is modelled by its
stable identity (`id`), the only field the core reads for registry purposes.
Fallible code (the `ValueError` raised by `transform_citations`, the
`IndexError` raised by `documents[cite - 1]`) is modelled with `Except`.
-/

namespace NewsRag

/-- Convert a string literal to the `List Char` representation used throughout. -/
def chars (s : String) : List Char := s.data

/-- haystack `Document`: an opaque source unit with a stable identity.
Display metadata is not read by any verified operation, so only `id` is kept. -/
structure Document where
  id : String
deriving DecidableEq

/-- generator.py `Sources.__init__`: the two parallel lists `_ids` and `_sources`. -/
structure Sources where
  ids : List String
  sources : List Document
deriving DecidableEq

/-- A fresh registry, as built by `Sources.__init__`. -/
def emptySources : Sources := ⟨[], []⟩

/-- Python `list.index` restricted to success/failure: index of the first
occurrence, `none` when absent (where Python raises `ValueError`). -/
def pyListIndex (x : String) : List String → Option Nat
  | [] => none
  | y :: ys => if y = x then some 0 else (pyListIndex x ys).map (· + 1)

/-- generator.py `Sources.add_source`: return the existing 1-based ordinal of
`document.id` if present (first-occurrence `list.index`), otherwise append to
both `_ids` and `_sources` and return the new length. -/
def addSource (s : Sources) (d : Document) : Nat × Sources :=
  match pyListIndex d.id s.ids with
  | some i => (i + 1, s)
  | none => (s.sources.length + 1, ⟨s.ids ++ [d.id], s.sources ++ [d]⟩)

/-- Python ASCII `\s` (the inputs under verification are ASCII). -/
def pyIsSpace (c : Char) : Bool :=
  c = ' ' ∨ c = '\t' ∨ c = '\n' ∨ c = '\r' ∨ c = Char.ofNat 11 ∨ c = Char.ofNat 12

/-- Python `int` applied to a string of decimal digits. -/
def natOfDigits (ds : List Char) : Nat :=
  ds.foldl (fun a c => a * 10 + (c.toNat - '0'.toNat)) 0

/-- Index of the last occurrence of `c` in `s`, or `none`. -/
def lastIdxOf (c : Char) : List Char → Option Nat
  | [] => none
  | x :: xs =>
    match lastIdxOf c xs with
    | some j => some (j + 1)
    | none => if x = c then some 0 else none

/-- generator.py line 16: `re.match(r"(.*\[)(.+)(\].*)", citation, flags=re.DOTALL)`.
With greedy backtracking this matches iff the string has a `]` at some position
`J ≥ i + 2` for some `[` at position `i`; the engine maximises `i` first, then
the `]` position, so: `J` is the last `]` overall, `i` is the last `[` at
position `≤ J - 2`, and the three groups are the prefix through `i`, the
content strictly between, and the suffix from `J` on. -/
def pyMatchCitation (s : List Char) : Option (List Char × List Char × List Char) :=
  match lastIdxOf ']' s with
  | none => none
  | some J =>
    match lastIdxOf '[' (s.take (J - 1)) with
    | none => none
    | some i => some (s.take (i + 1), (s.drop (i + 1)).take (J - 1 - i), s.drop J)

/-- One repetition of `ARTICLE\s(\d+)`: the literal, one whitespace, then a
maximal non-empty digit run. Returns the captured number and the rest. -/
def matchOne (s : List Char) : Option (Nat × List Char) :=
  if s.take 7 = chars "ARTICLE" ∧ pyIsSpace (s.getD 7 'x') ∧ 8 ≤ s.length then
    if (s.drop 8).takeWhile Char.isDigit = [] then none
    else some (natOfDigits ((s.drop 8).takeWhile Char.isDigit),
               (s.drop 8).dropWhile Char.isDigit)
  else none

/-- generator.py line 22: `re.findall(r"(?:ARTICLE\s(\d+))+", content)` with one
capture group: scan left to right; a maximal run of adjacent repetitions forms
one match whose recorded capture is the LAST repetition's group (`pend` holds
the capture of the repetition chain in progress). The `fuel` argument only
totalises the recursion: every step consumes at least one character, so with
`fuel = s.length + 1` it never runs out. -/
def findAllArticlesAux : Nat → List Char → Option Nat → List Nat
  | 0, _, pend => pend.toList
  | fuel + 1, s, pend =>
    match matchOne s with
    | some (n, r) => findAllArticlesAux fuel r (some n)
    | none =>
      match s with
      | [] => pend.toList
      | _ :: rest =>
        match pend with
        | some m => m :: findAllArticlesAux fuel rest none
        | none => findAllArticlesAux fuel rest none

/-- All captures of `re.findall(r"(?:ARTICLE\s(\d+))+", content)`, as numbers. -/
def findAllArticles (s : List Char) : List Nat :=
  findAllArticlesAux (s.length + 1) s none

/-- The two exceptions that can escape `stream_sourced_output`:
`ValueError("Bad citation format: ...")` from `transform_citations`, and
`IndexError` from `documents[cite - 1]`. -/
inductive GenError where
  | badCitation
  | indexError
deriving DecidableEq

/-- generator.py `transform_citations`: split the buffered text by the bracket
pattern and extract the article numbers; raise on no pattern match. -/
def transformCitations (s : List Char) : Except GenError (List Char × List Nat × List Char) :=
  match pyMatchCitation s with
  | none => .error .badCitation
  | some (a, b, c) => .ok (a, findAllArticles b, c)

/-- Python list subscription `xs[i]` on an `Int` index: non-negative indices
from the front, negative indices from the back, `IndexError` (`none`) outside. -/
def pyGet {α : Type} (xs : List α) (i : Int) : Option α :=
  if 0 ≤ i then xs.get? i.toNat
  else if 0 ≤ (xs.length : Int) + i then xs.get? ((xs.length : Int) + i).toNat
  else none

/-- generator.py lines 113-119: for each parsed article number, fetch
`documents[cite - 1]` and push it through `sources.add_source`, collecting the
returned ordinals in order. -/
def resolveCites (docs : List Document) (s : Sources) :
    List Nat → Except GenError (List Nat × Sources)
  | [] => .ok ([], s)
  | c :: cs =>
    match pyGet docs ((c : Int) - 1) with
    | none => .error .indexError
    | some d =>
      let p := addSource s d
      match resolveCites docs p.2 cs with
      | .error e => .error e
      | .ok (ns, s') => .ok (p.1 :: ns, s')

/-- generator.py line 123: `','.join(str(cite) for cite in new_citations)`. -/
def ordsStr (ns : List Nat) : List Char :=
  List.intercalate [','] (ns.map (fun n => Nat.toDigits 10 n))

/-- The loop state of `stream_sourced_output`: accumulated output `history`,
citation buffer `ref`, and the running registry. -/
structure GenState where
  history : List Char
  ref : List Char
  sources : Sources
deriving DecidableEq

/-- One iteration of the `for new_token in stream` loop of
`stream_sourced_output` (lines 100-129). Note the `new_token = ["BAD REF"]`
assignment on line 109 is dead: line 123 unconditionally overwrites
`new_token`, so a marker with zero article numbers is recomposed as
`start + '' + end`. -/
def processToken (docs : List Document) (st : GenState) (tok : List Char) :
    Except GenError GenState :=
  let ref1 := if '[' ∈ tok ∨ st.ref ≠ [] then st.ref ++ tok else st.ref
  if ref1 ≠ [] ∧ ']' ∈ tok then
    match transformCitations ref1 with
    | .error e => .error e
    | .ok (start, cites, stop) =>
      match resolveCites docs st.sources cites with
      | .error e => .error e
      | .ok (ns, s') => .ok ⟨st.history ++ start ++ ordsStr ns ++ stop, [], s'⟩
  else if ref1 ≠ [] then
    .ok ⟨st.history, ref1, st.sources⟩
  else
    .ok ⟨st.history ++ tok, st.ref, st.sources⟩

/-- Run the loop of `stream_sourced_output` over the remaining tokens. -/
def runFrom (docs : List Document) (st : GenState) : List (List Char) → Except GenError GenState
  | [] => .ok st
  | t :: ts =>
    match processToken docs st t with
    | .error e => .error e
    | .ok st' => runFrom docs st' ts

/-- generator.py `stream_sourced_output`, consumed to exhaustion: the final
`(history, ref, sources)` state (the last yielded text is `history`; a still
open buffer `ref` is dropped silently), or the uncaught exception. -/
def runStream (docs : List Document) (toks : List (List Char)) (s0 : Sources) :
    Except GenError GenState :=
  runFrom docs ⟨[], [], s0⟩ toks

/-- Split a text into consecutive 2-character token chunks (tests/spec §8). -/
def chunksOfTwo : List Char → List (List Char)
  | [] => []
  | [a] => [[a]]
  | a :: b :: r => [a, b] :: chunksOfTwo r

/-- Split a text into single-character token chunks. -/
def perChar (s : List Char) : List (List Char) := s.map (fun c => [c])

/-- A streamed chunk as passed to `StreamingText.__call__`: its text content
and the two backend completion conventions read from `chunk.meta`
(an ollama boolean `done` being true, or a huggingface `finish_reason` key
being present at all). -/
structure Chunk where
  content : List Char
  metaDone : Bool
  hasFinishReason : Bool

/-- generator.py `StreamingText`: the internal `Queue` of token contents and
the `_done` flag. -/
structure StreamingText where
  queue : List (List Char)
  done : Bool
deriving DecidableEq

/-- Model of `StreamingText.__init__`. -/
def emptyStreaming : StreamingText := ⟨[], false⟩

/-- generator.py `StreamingText.__call__` (lines 37-46): set `_done` if either
completion convention fires, then put the chunk content on the queue
(the content is queued even for the terminal chunk). -/
def stPush (st : StreamingText) (c : Chunk) : StreamingText :=
  ⟨st.queue ++ [c.content], st.done || c.metaDone || c.hasFinishReason⟩

/-- A whole producer-side push sequence. -/
def stPushAll (st : StreamingText) (cs : List Chunk) : StreamingText :=
  cs.foldl stPush st

/-- The consumer loop over `StreamingText.__next__` (lines 51-54), run after
the producer has finished: `__next__` raises `StopIteration` as soon as
`_done` is true (checked BEFORE the queue), otherwise `Queue.get` pops a
queued item or blocks forever on an empty queue. Returns the list of contents
obtained before `StopIteration`, or `none` if the consumer blocks forever. -/
def stDrainAux (done : Bool) : List (List Char) → Option (List (List Char))
  | [] => if done then some [] else none
  | c :: q => if done then some [] else (stDrainAux done q).map (c :: ·)

/-- See `stDrainAux`: drain a `StreamingText` channel from its current state
(`_done` is constant once the producer has finished). -/
def stDrain (st : StreamingText) : Option (List (List Char)) :=
  stDrainAux st.done st.queue

/-- pipelines.py `StreamingGeneratorMixin.run_async`, abstracted over what the
worker does: the chunks the backend pushed through the fresh `StreamingText`
callback before `self.run` returned or raised, and whether it raised. -/
structure WorkerRun where
  pushed : List Chunk
  raised : Bool

/-- The `StreamingText` channel state after the `run_async` worker finishes:
nothing in `run_async` or `StreamingText` reacts to a worker error
(the `error_callback` only prints), so the channel is exactly the pushes. -/
def runAsyncChannel (w : WorkerRun) : StreamingText :=
  stPushAll emptyStreaming w.pushed

/-- Modelled from the spec: the `multiprocessing.pool.AsyncResult` handle
returned by `pool.apply_async` (external library) carries the worker's error
exactly when the worker raised. -/
def handleHasError (w : WorkerRun) : Bool := w.raised

/-- The 13 documents `D0..D12` of the spec §8 concrete scenario, identified by
their stable ids. -/
def docs13 : List Document :=
  [⟨"d0"⟩, ⟨"d1"⟩, ⟨"d2"⟩, ⟨"d3"⟩, ⟨"d4"⟩, ⟨"d5"⟩, ⟨"d6"⟩,
   ⟨"d7"⟩, ⟨"d8"⟩, ⟨"d9"⟩, ⟨"d10"⟩, ⟨"d11"⟩, ⟨"d12"⟩]

/-- C1: on the input `"a [NOT A REF] b"` the code does NOT produce
`"a BAD REF b"`: the `new_token = ["BAD REF"]` assignment of line 109 is dead
(line 123 unconditionally overwrites it), so for every document list the
stream yields the final text `"a [] b"` — the malformed marker with its
content stripped — raising no exception and leaving the registry empty. -/
theorem c1_malformed_marker_eval (docs : List Document) :
    runStream docs [chars "a [NOT A REF] b"] emptySources =
      .ok ⟨chars "a [] b", [], emptySources⟩ := rfl

/-- C2: a buffered citation whose bracket content is empty (`"[]"`) makes
`re.match(r"(.*\[)(.+)(\].*)")` fail, so `transform_citations` raises
`ValueError` and the exception escapes `stream_sourced_output`, aborting the
stream instead of emitting a placeholder and continuing. -/
theorem c2_empty_marker_raises (docs : List Document) :
    runStream docs [chars "[]"] emptySources = .error .badCitation := rfl

/-- C3: pushing `"a"` (non-terminal) then `"b"` (ollama `done=True`) leaves
both contents on the internal queue with `_done` already true; the consumer's
`__next__` checks `_done` BEFORE draining the queue, so it raises
`StopIteration` at once and both unread queued tokens are lost to closure,
contradicting "returns every pushed token before signalling end-of-sequence". -/
theorem c3_tokens_lost_at_closure :
    stPushAll emptyStreaming [⟨chars "a", false, false⟩, ⟨chars "b", true, false⟩] =
      ⟨[chars "a", chars "b"], true⟩ ∧
    stDrain ⟨[chars "a", chars "b"], true⟩ = some [] := ⟨rfl, rfl⟩

/-- C4 counterexample: one fixed total input `"[ARTICLE 1] [ARTICLE 2]"`, two
documents, two chunkings of the same text. Fed as a single token, the whole
text is buffered and the greedy `(.*\[)` prefix swallows the first marker, so
only `[ARTICLE 2]` is rewritten; fed character by character, both markers are
rewritten. The final texts differ, so the rewrite is chunk-boundary-sensitive. -/
theorem c4_counterexample :
    (perChar (chars "[ARTICLE 1] [ARTICLE 2]")).flatten = chars "[ARTICLE 1] [ARTICLE 2]" ∧
    runStream [⟨"d0"⟩, ⟨"d1"⟩] [chars "[ARTICLE 1] [ARTICLE 2]"] emptySources =
      .ok ⟨chars "[ARTICLE 1] [1]", [], ⟨["d1"], [⟨"d1"⟩]⟩⟩ ∧
    runStream [⟨"d0"⟩, ⟨"d1"⟩] (perChar (chars "[ARTICLE 1] [ARTICLE 2]")) emptySources =
      .ok ⟨chars "[1] [2]", [], ⟨["d0", "d1"], [⟨"d0"⟩, ⟨"d1"⟩]⟩⟩ ∧
    chars "[ARTICLE 1] [1]" ≠ chars "[1] [2]" :=
  ⟨by decide, rfl, rfl, by decide⟩

/-- C5: the spec §8 concrete scenario: 13 documents, the two-marker input fed
in 2-character chunks, yields exactly the claimed final text and registers
exactly `[D0, D10]` in that order. -/
theorem c5_concrete_scenario :
    runStream docs13
      (chunksOfTwo (chars "this is a statement [ARTICLE 1].\n This is another statement [ARTICLE 1, ARTICLE 11]"))
      emptySources =
    .ok ⟨chars "this is a statement [1].\n This is another statement [1,2]", [],
         ⟨["d0", "d10"], [⟨"d0"⟩, ⟨"d10"⟩]⟩⟩ := rfl

/-- C6: an article number outside `1..N` is NOT handled as a recoverable
per-marker error: with a single supplied document, the marker `[ARTICLE 2]`
evaluates `documents[1]`, which raises `IndexError` and aborts the stream. -/
theorem c6_out_of_range_aborts :
    runStream [⟨"d0"⟩] [chars "[ARTICLE 2]"] emptySources = .error .indexError := rfl

/-- C8: when the generation worker raises after pushing a (non-terminal) token
and before any completion signal, the async handle carries the error, but the
token channel is NOT closed (`_done` stays false — nothing in `run_async`
reacts to the error beyond printing), so a consumer read loop blocks forever
(`stDrain = none`) instead of observing normal end of stream. -/
theorem c8_worker_error_leaves_channel_open :
    handleHasError ⟨[⟨chars "tok", false, false⟩], true⟩ = true ∧
    (runAsyncChannel ⟨[⟨chars "tok", false, false⟩], true⟩).done = false ∧
    stDrain (runAsyncChannel ⟨[⟨chars "tok", false, false⟩], true⟩) = none :=
  ⟨rfl, rfl, rfl⟩

/-- C9 counterexample: the single-token stream `["["]` contains zero citation
markers, yet it does not pass through unchanged: the `[` starts buffering, the
stream ends with the buffer open, and the buffered text is dropped silently,
so the final text is `""` while the concatenation of the input is `"["`. -/
theorem c9_counterexample :
    runStream [] [chars "["] emptySources = .ok ⟨[], chars "[", emptySources⟩ ∧
    List.flatten [chars "["] ≠ ([] : List Char) :=
  ⟨rfl, by decide⟩

/-- A sequence of `add_source` calls, state only. -/
def runAdds (s : Sources) (ds : List Document) : Sources :=
  ds.foldl (fun s d => (addSource s d).2) s

theorem pyListIndex_append_some {x : String} {l₁ : List String} {i : Nat}
    (h : pyListIndex x l₁ = some i) (l₂ : List String) :
    pyListIndex x (l₁ ++ l₂) = some i := by
  induction l₁ generalizing i with
  | nil => simp [pyListIndex] at h
  | cons y ys ih =>
    by_cases hyx : y = x
    · simp only [pyListIndex, if_pos hyx, List.cons_append] at h ⊢
      exact h
    · simp only [pyListIndex, if_neg hyx, List.cons_append, List.append_eq] at h ⊢
      cases hp : pyListIndex x ys with
      | none => rw [hp] at h; simp at h
      | some j =>
        rw [hp] at h
        rw [ih hp]
        exact h

theorem pyListIndex_append_none {x : String} {l₁ : List String}
    (h : pyListIndex x l₁ = none) (l₂ : List String) :
    pyListIndex x (l₁ ++ l₂) = (pyListIndex x l₂).map (· + l₁.length) := by
  induction l₁ with
  | nil => cases hp : pyListIndex x l₂ <;> simp [hp]
  | cons y ys ih =>
    by_cases hyx : y = x
    · simp [pyListIndex, if_pos hyx] at h
    · simp only [pyListIndex, if_neg hyx, List.cons_append, List.append_eq] at h ⊢
      have hys : pyListIndex x ys = none := by
        cases hp : pyListIndex x ys with
        | none => rfl
        | some j => rw [hp] at h; simp at h
      rw [ih hys]
      cases hp : pyListIndex x l₂ with
      | none => simp
      | some j =>
        simp [Nat.add_assoc]

theorem pyListIndex_eq_none {x : String} {l : List String} :
    pyListIndex x l = none ↔ x ∉ l := by
  induction l with
  | nil => simp [pyListIndex]
  | cons y ys ih =>
    by_cases hyx : y = x
    · subst hyx
      simp [pyListIndex]
    · simp only [pyListIndex, if_neg hyx, List.mem_cons]
      rw [Option.map_eq_none', ih]
      have hxy : ¬x = y := fun h => hyx h.symm
      simp [hxy]

theorem runAdds_ids_extend (es : List Document) (s : Sources) :
    ∃ ext, (runAdds s es).ids = s.ids ++ ext := by
  induction es generalizing s with
  | nil => exact ⟨[], (List.append_nil _).symm⟩
  | cons e es ih =>
    show ∃ ext, (runAdds (addSource s e).2 es).ids = s.ids ++ ext
    unfold addSource
    cases hp : pyListIndex e.id s.ids with
    | some i => simpa using ih s
    | none =>
      obtain ⟨ext, hext⟩ := ih ⟨s.ids ++ [e.id], s.sources ++ [e]⟩
      exact ⟨[e.id] ++ ext, by rw [hext]; simp⟩

theorem runAdds_length_inv (es : List Document) (s : Sources)
    (h : s.ids.length = s.sources.length) :
    (runAdds s es).ids.length = (runAdds s es).sources.length := by
  induction es generalizing s with
  | nil => exact h
  | cons e es ih =>
    show (runAdds (addSource s e).2 es).ids.length = (runAdds (addSource s e).2 es).sources.length
    unfold addSource
    cases hp : pyListIndex e.id s.ids with
    | some i => exact ih s h
    | none => exact ih ⟨s.ids ++ [e.id], s.sources ++ [e]⟩ (by simp [h])

/-- C7: the registry built by any sequence of `add_source` calls satisfies the
claimed contract: (a) adding a document whose identity is already registered
leaves the registry unchanged (nothing reordered or removed, the returned
value is its existing ordinal); (b) adding an unregistered identity appends it
and returns the new ordinal, which equals the registry size after the append;
(c) after any further intervening calls, adding any document of equal
identity returns the same ordinal again. -/
theorem c7_registry_spec (ds : List Document) (d : Document) :
    (d.id ∈ (runAdds emptySources ds).ids →
      (addSource (runAdds emptySources ds) d).2 = runAdds emptySources ds) ∧
    (d.id ∉ (runAdds emptySources ds).ids →
      (addSource (runAdds emptySources ds) d).2.sources
        = (runAdds emptySources ds).sources ++ [d] ∧
      (addSource (runAdds emptySources ds) d).1
        = (addSource (runAdds emptySources ds) d).2.sources.length) ∧
    (∀ (es : List Document) (d' : Document), d'.id = d.id →
      (addSource (runAdds (addSource (runAdds emptySources ds) d).2 es) d').1
        = (addSource (runAdds emptySources ds) d).1) := by
  set s := runAdds emptySources ds with hs
  have hlen : s.ids.length = s.sources.length := runAdds_length_inv ds emptySources rfl
  refine ⟨?_, ?_, ?_⟩
  · intro hmem
    cases hp : pyListIndex d.id s.ids with
    | none => exact absurd (pyListIndex_eq_none.mp hp) (by simp [hmem])
    | some i => simp [addSource, hp]
  · intro hmem
    have hp : pyListIndex d.id s.ids = none := pyListIndex_eq_none.mpr hmem
    simp [addSource, hp]
  · intro es d' hd'
    cases hp : pyListIndex d.id s.ids with
    | some i =>
      have h2 : (addSource s d).2 = s := by simp [addSource, hp]
      have h1 : (addSource s d).1 = i + 1 := by simp [addSource, hp]
      rw [h2, h1]
      obtain ⟨ext, hext⟩ := runAdds_ids_extend es s
      have : pyListIndex d'.id (runAdds s es).ids = some i := by
        rw [hext, hd']
        exact pyListIndex_append_some hp ext
      simp [addSource, this]
    | none =>
      have h2 : (addSource s d).2 = ⟨s.ids ++ [d.id], s.sources ++ [d]⟩ := by
        simp [addSource, hp]
      have h1 : (addSource s d).1 = s.sources.length + 1 := by
        simp [addSource, hp]
      rw [h2, h1]
      obtain ⟨ext, hext⟩ := runAdds_ids_extend es ⟨s.ids ++ [d.id], s.sources ++ [d]⟩
      have hfind : pyListIndex d'.id (runAdds ⟨s.ids ++ [d.id], s.sources ++ [d]⟩ es).ids
          = some s.ids.length := by
        rw [hext]
        show pyListIndex d'.id ((s.ids ++ [d.id]) ++ ext) = some s.ids.length
        rw [List.append_assoc, hd', pyListIndex_append_none hp]
        simp [pyListIndex]
      simp [addSource, hfind, hlen]

/-- Witness for C7: concrete instances of parts (a) and (c). -/
theorem c7_registry_spec_witness :
    (addSource (runAdds emptySources [⟨"a"⟩]) ⟨"a"⟩).2 = runAdds emptySources [⟨"a"⟩] ∧
    (addSource (runAdds (addSource (runAdds emptySources [⟨"a"⟩]) ⟨"a"⟩).2 [⟨"b"⟩]) ⟨"a"⟩).1
      = (addSource (runAdds emptySources [⟨"a"⟩]) ⟨"a"⟩).1 :=
  ⟨(c7_registry_spec [⟨"a"⟩] ⟨"a"⟩).1 (by decide),
   (c7_registry_spec [⟨"a"⟩] ⟨"a"⟩).2.2 [⟨"b"⟩] ⟨"a"⟩ rfl⟩

theorem lastIdxOf_eq_none {c : Char} {l : List Char} (h : c ∉ l) :
    lastIdxOf c l = none := by
  induction l with
  | nil => rfl
  | cons x xs ih =>
    have hx : ¬x = c := fun hh => h (hh ▸ List.mem_cons_self x xs)
    have hxs : c ∉ xs := fun hh => h (List.mem_cons_of_mem _ hh)
    simp [lastIdxOf, ih hxs, hx]

theorem lastIdxOf_cons_some {c x : Char} {l : List Char} {j : Nat}
    (h : lastIdxOf c l = some j) : lastIdxOf c (x :: l) = some (j + 1) := by
  simp [lastIdxOf, h]

theorem lastIdxOf_cons_self {c : Char} {l : List Char} (h : c ∉ l) :
    lastIdxOf c (c :: l) = some 0 := by
  simp [lastIdxOf, lastIdxOf_eq_none h]

theorem lastIdxOf_append_some {c : Char} {l₂ : List Char} {j : Nat}
    (h : lastIdxOf c l₂ = some j) (l₁ : List Char) :
    lastIdxOf c (l₁ ++ l₂) = some (l₁.length + j) := by
  induction l₁ with
  | nil => simpa using h
  | cons x xs ih =>
    rw [List.cons_append, lastIdxOf_cons_some ih]
    congr 1
    simp
    omega

theorem lastIdxOf_append_none {c : Char} {l₂ : List Char}
    (h : lastIdxOf c l₂ = none) (l₁ : List Char) :
    lastIdxOf c (l₁ ++ l₂) = lastIdxOf c l₁ := by
  induction l₁ with
  | nil => simpa using h
  | cons x xs ih => simp [List.cons_append, lastIdxOf, ih]

/-- The regex split on a buffer of the shape `pt · [ · mid · ] · ph` where the
content `mid` is non-empty and free of `[`, and the tail `ph` is free of `]`:
the last `]` is the explicit one, the last `[` before it is the explicit one,
so the three groups are exactly `pt ++ "["`, `mid` and `"]" ++ ph`. -/
theorem pyMatchCitation_split (pt mid ph : List Char)
    (hm : '[' ∉ mid) (hp : ']' ∉ ph) (hne : mid ≠ []) :
    pyMatchCitation (pt ++ '[' :: (mid ++ ']' :: ph)) =
      some (pt ++ ['['], mid, ']' :: ph) := by
  have hml : 0 < mid.length := List.length_pos.mpr hne
  have hs : pt ++ '[' :: (mid ++ ']' :: ph) = (pt ++ ['[']) ++ (mid ++ ']' :: ph) := by
    simp
  rw [hs]
  have hJ : lastIdxOf ']' ((pt ++ ['[']) ++ (mid ++ ']' :: ph))
      = some (pt.length + 1 + mid.length) := by
    rw [lastIdxOf_append_some (lastIdxOf_append_some (lastIdxOf_cons_self hp) mid) (pt ++ ['['])]
    congr 1
    simp
  have hI : lastIdxOf '[' (((pt ++ ['[']) ++ (mid ++ ']' :: ph)).take
        (pt.length + 1 + mid.length - 1)) = some pt.length := by
    rw [show pt.length + 1 + mid.length - 1 = (pt ++ ['[']).length + (mid.length - 1) by
      simp; omega]
    rw [List.take_append]
    rw [List.take_append_of_le_length (by omega)]
    have hmt : '[' ∉ mid.take (mid.length - 1) := fun hh => hm (List.take_subset _ _ hh)
    rw [lastIdxOf_append_none (lastIdxOf_eq_none hmt) (pt ++ ['['])]
    rw [lastIdxOf_append_some (lastIdxOf_cons_self (List.not_mem_nil '[')) pt]
    rfl
  unfold pyMatchCitation
  split
  · rename_i heq
    rw [hJ] at heq
    exact Option.noConfusion heq
  · rename_i J heq
    rw [hJ] at heq
    have hJ' : J = pt.length + 1 + mid.length := (Option.some.inj heq).symm
    subst hJ'
    split
    · rename_i heq2
      rw [hI] at heq2
      exact Option.noConfusion heq2
    · rename_i i heq2
      rw [hI] at heq2
      have hi : i = pt.length := (Option.some.inj heq2).symm
      subst hi
      have hstart : ((pt ++ ['[']) ++ (mid ++ ']' :: ph)).take (pt.length + 1)
          = pt ++ ['['] := by
        rw [show pt.length + 1 = (pt ++ ['[']).length + 0 by simp]
        rw [List.take_append]
        simp
      have hdrop : ((pt ++ ['[']) ++ (mid ++ ']' :: ph)).drop (pt.length + 1)
          = mid ++ ']' :: ph := by
        rw [show pt.length + 1 = (pt ++ ['[']).length + 0 by simp]
        rw [List.drop_append]
        simp
      have hcontent : (mid ++ ']' :: ph).take (pt.length + 1 + mid.length - 1 - pt.length)
          = mid := by
        rw [show pt.length + 1 + mid.length - 1 - pt.length = mid.length by omega]
        exact List.take_left mid _
      have hstop : ((pt ++ ['[']) ++ (mid ++ ']' :: ph)).drop (pt.length + 1 + mid.length)
          = ']' :: ph := by
        rw [show pt.length + 1 + mid.length = (pt ++ ['[']).length + mid.length by simp]
        rw [List.drop_append]
        exact List.drop_left mid _
      rw [hstart, hdrop, hcontent, hstop]

/-- Evaluation of `transform_citations` on a buffer of the canonical
single-marker shape. -/
theorem transformCitations_split (pt mid ph : List Char)
    (hm : '[' ∉ mid) (hp : ']' ∉ ph) (hne : mid ≠ []) :
    transformCitations (pt ++ '[' :: (mid ++ ']' :: ph)) =
      .ok (pt ++ ['['], findAllArticles mid, ']' :: ph) := by
  unfold transformCitations
  rw [pyMatchCitation_split pt mid ph hm hp hne]

theorem processToken_emit (docs : List Document) (hist : List Char) (s : Sources)
    (tok : List Char) (htok : '[' ∉ tok) :
    processToken docs ⟨hist, [], s⟩ tok = .ok ⟨hist ++ tok, [], s⟩ := by
  unfold processToken
  simp [htok]

theorem processToken_bufferStart (docs : List Document) (hist : List Char) (s : Sources)
    (tok : List Char) (h1 : '[' ∈ tok) (h2 : ']' ∉ tok) :
    processToken docs ⟨hist, [], s⟩ tok = .ok ⟨hist, tok, s⟩ := by
  have hne : tok ≠ [] := fun hh => by simp [hh] at h1
  unfold processToken
  simp [h1, h2, hne]

theorem processToken_bufferCont (docs : List Document) (hist : List Char) (s : Sources)
    (tok ref : List Char) (href : ref ≠ []) (h2 : ']' ∉ tok) :
    processToken docs ⟨hist, ref, s⟩ tok = .ok ⟨hist, ref ++ tok, s⟩ := by
  unfold processToken
  simp [href, h2]

/-- Closing a buffer whose total text has the canonical single-marker shape,
when every parsed article number resolves: the recomposed token is emitted and
the buffer is cleared. -/
theorem processToken_close_resolved (docs : List Document) (hist : List Char) (s : Sources)
    (tok ref pt mid ph : List Char) (ns : List Nat) (s' : Sources)
    (hor : ref ≠ [] ∨ '[' ∈ tok) (h2 : ']' ∈ tok)
    (hshape : ref ++ tok = pt ++ '[' :: (mid ++ ']' :: ph))
    (hm : '[' ∉ mid) (hp : ']' ∉ ph) (hne : mid ≠ [])
    (hres : resolveCites docs s (findAllArticles mid) = .ok (ns, s')) :
    processToken docs ⟨hist, ref, s⟩ tok =
      .ok ⟨hist ++ (pt ++ ['[']) ++ ordsStr ns ++ (']' :: ph), [], s'⟩ := by
  have htne : tok ≠ [] := fun hh => by simp [hh] at h2
  have hcond : '[' ∈ tok ∨ ref ≠ [] := hor.symm
  have hr1 : ref ++ tok ≠ [] := by simp [htne]
  unfold processToken
  simp only [if_pos hcond]
  rw [if_pos ⟨hr1, h2⟩]
  rw [hshape, transformCitations_split pt mid ph hm hp hne]
  simp only [hres]

/-- Closing a buffer of the canonical single-marker shape when citation
resolution fails (unresolvable index): the exception propagates. -/
theorem processToken_close_error (docs : List Document) (hist : List Char) (s : Sources)
    (tok ref pt mid ph : List Char) (e : GenError)
    (hor : ref ≠ [] ∨ '[' ∈ tok) (h2 : ']' ∈ tok)
    (hshape : ref ++ tok = pt ++ '[' :: (mid ++ ']' :: ph))
    (hm : '[' ∉ mid) (hp : ']' ∉ ph) (hne : mid ≠ [])
    (hres : resolveCites docs s (findAllArticles mid) = .error e) :
    processToken docs ⟨hist, ref, s⟩ tok = .error e := by
  have htne : tok ≠ [] := fun hh => by simp [hh] at h2
  have hcond : '[' ∈ tok ∨ ref ≠ [] := hor.symm
  have hr1 : ref ++ tok ≠ [] := by simp [htne]
  unfold processToken
  simp only [if_pos hcond]
  rw [if_pos ⟨hr1, h2⟩]
  rw [hshape, transformCitations_split pt mid ph hm hp hne]
  simp only [hres]

/-- C10: for every non-empty document list (written `ds ++ [d]`, so `d` is its
last element), the article number 0 makes `stream_sourced_output` evaluate
`documents[0 - 1]`, i.e. Python index `-1`: the marker `[ARTICLE 0]` silently
resolves to the LAST document, registers it, and is rewritten to its valid
registry ordinal `[1]`, instead of index 0 being rejected as out of range. -/
theorem c10_article_zero_negative_index (ds : List Document) (d : Document) :
    pyGet (ds ++ [d]) (-1) = some d ∧
    runStream (ds ++ [d]) [chars "[ARTICLE 0]"] emptySources =
      .ok ⟨chars "[1]", [], ⟨[d.id], [d]⟩⟩ := by
  have hget : pyGet (ds ++ [d]) (-1) = some d := by
    unfold pyGet
    rw [if_neg (by omega)]
    have hlen : (((ds ++ [d]).length : Int)) = (ds.length : Int) + 1 := by
      simp
    rw [hlen, if_pos (by omega)]
    have ht : ((ds.length : Int) + 1 + -1).toNat = ds.length := by omega
    rw [ht]
    simpa [List.get?_eq_getElem?] using List.getElem?_concat_length ds d
  refine ⟨hget, ?_⟩
  have hres : resolveCites (ds ++ [d]) emptySources [0] = .ok ([1], ⟨[d.id], [d]⟩) := by
    unfold resolveCites
    have hidx : ((0 : Nat) : Int) - 1 = -1 := by norm_num
    rw [hidx, hget]
    simp [addSource, pyListIndex, resolveCites, emptySources]
  have hpt : processToken (ds ++ [d]) ⟨[], [], emptySources⟩ (chars "[ARTICLE 0]") =
      .ok ⟨chars "[1]", [], ⟨[d.id], [d]⟩⟩ := by
    have h := processToken_close_resolved (ds ++ [d]) [] emptySources
      (chars "[ARTICLE 0]") [] [] (chars "ARTICLE 0") [] [1] ⟨[d.id], [d]⟩
      (Or.inr (by decide)) (by decide) (by decide) (by decide) (by decide) (by decide)
      (by rw [show findAllArticles (chars "ARTICLE 0") = [0] from rfl]; exact hres)
    rw [h]
    rfl
  show runFrom (ds ++ [d]) ⟨[], [], emptySources⟩ [chars "[ARTICLE 0]"] = _
  unfold runFrom
  rw [hpt]
  rfl

theorem runFrom_passthrough (docs : List Document) (toks : List (List Char)) :
    ∀ (hist : List Char) (s : Sources), (∀ t ∈ toks, '[' ∉ t) →
    runFrom docs ⟨hist, [], s⟩ toks = .ok ⟨hist ++ toks.flatten, [], s⟩ := by
  induction toks with
  | nil =>
    intro hist s _
    simp [runFrom]
  | cons t ts ih =>
    intro hist s h
    unfold runFrom
    rw [processToken_emit docs hist s t (h t (List.mem_cons_self t ts))]
    show runFrom docs ⟨hist ++ t, [], s⟩ ts = _
    rw [ih (hist ++ t) s (fun u hu => h u (List.mem_cons_of_mem _ hu))]
    simp [List.append_assoc]

/-- C9 (amended): for every document list and every token stream in which no
token contains the character `[` (hence the stream contains no citation
markers and no marker opener), the final text equals the concatenation of the
input tokens exactly and the registry is still empty at exhaustion. -/
theorem c9_no_bracket_passthrough (docs : List Document) (toks : List (List Char))
    (h : ∀ t ∈ toks, '[' ∉ t) :
    runStream docs toks emptySources = .ok ⟨toks.flatten, [], emptySources⟩ := by
  have hp := runFrom_passthrough docs toks [] emptySources h
  simpa using hp

/-- Witness for C9 (amended): a concrete bracket-free stream (a stray `]` is
fine) passes through unchanged with an empty registry. -/
theorem c9_no_bracket_passthrough_witness :
    runStream [] [chars "ab", chars "]c"] emptySources =
      .ok ⟨chars "ab]c", [], emptySources⟩ :=
  c9_no_bracket_passthrough [] [chars "ab", chars "]c"] (by decide)

theorem append_eq_split_right {t r a b : List Char} {c : Char}
    (h : t ++ r = a ++ c :: b) (hc : c ∉ t) :
    ∃ a₂, a = t ++ a₂ ∧ r = a₂ ++ c :: b := by
  induction t generalizing a with
  | nil => exact ⟨a, rfl, h⟩
  | cons x ts ih =>
    cases a with
    | nil =>
      rw [List.nil_append, List.cons_append] at h
      injection h with hx _
      exact absurd (hx ▸ List.mem_cons_self x ts) hc
    | cons y as =>
      rw [List.cons_append, List.cons_append] at h
      injection h with hxy hrest
      have hct : c ∉ ts := fun hh => hc (List.mem_cons_of_mem _ hh)
      obtain ⟨a₂, ha, hr⟩ := ih hrest hct
      exact ⟨a₂, by rw [hxy, ha, List.cons_append], hr⟩

theorem append_eq_split_left {t r a b : List Char} {c : Char}
    (h : t ++ r = a ++ c :: b) (hca : c ∉ a) (hct : c ∈ t) :
    ∃ t₂, t = a ++ c :: t₂ ∧ b = t₂ ++ r := by
  induction a generalizing t with
  | nil =>
    cases t with
    | nil => exact absurd hct (List.not_mem_nil c)
    | cons x ts =>
      rw [List.nil_append, List.cons_append] at h
      injection h with hx hrest
      exact ⟨ts, by rw [hx, List.nil_append], hrest.symm⟩
  | cons y as ih =>
    cases t with
    | nil => exact absurd hct (List.not_mem_nil c)
    | cons x ts =>
      rw [List.cons_append, List.cons_append] at h
      injection h with hxy hrest
      have hct' : c ∈ ts := by
        rcases List.mem_cons.mp hct with hh | hh
        · exact absurd (by rw [hh, hxy]; exact List.mem_cons_self y as) hca
        · exact hh
      have hca' : c ∉ as := fun hh => hca (List.mem_cons_of_mem _ hh)
      obtain ⟨t₂, ht, hb⟩ := ih hrest hca' hct'
      exact ⟨t₂, by rw [hxy, ht, List.cons_append], hb⟩

/-- While a buffer `pt ++ "[" ++ mid₁` is open and the remaining input supplies
`midR ++ "]" ++ post` (with `midR`, `post` bracket-free), the run closes the
marker at the first token carrying `]`, resolves the full content
`mid₁ ++ midR`, and passes the rest of `post` through — independently of the
chunk boundaries. -/
theorem runFrom_buffering (docs : List Document) (ts : List (List Char)) :
    ∀ (hist pt mid₁ midR post : List Char) (s : Sources),
    '[' ∉ mid₁ →
    '[' ∉ midR → ']' ∉ midR →
    '[' ∉ post → ']' ∉ post →
    mid₁ ++ midR ≠ [] →
    ts.flatten = midR ++ ']' :: post →
    runFrom docs ⟨hist, pt ++ '[' :: mid₁, s⟩ ts =
      match resolveCites docs s (findAllArticles (mid₁ ++ midR)) with
      | .error e => .error e
      | .ok (ns, s') =>
        .ok ⟨hist ++ (pt ++ ['[']) ++ ordsStr ns ++ (']' :: post), [], s'⟩ := by
  induction ts with
  | nil =>
    intro hist pt mid₁ midR post s _ _ _ _ _ _ hflat
    simp at hflat
  | cons t ts ih =>
    intro hist pt mid₁ midR post s hm1 hmR1 hmR2 hpo1 hpo2 hne hflat
    rw [List.flatten_cons] at hflat
    by_cases hT : ']' ∈ t
    · obtain ⟨t₂, ht, hb⟩ := append_eq_split_left hflat hmR2 hT
      have hshape : (pt ++ '[' :: mid₁) ++ t = pt ++ '[' :: ((mid₁ ++ midR) ++ ']' :: t₂) := by
        rw [ht]
        simp [List.append_assoc]
      have hrefne : pt ++ '[' :: mid₁ ≠ [] := by simp
      have hmmid : '[' ∉ mid₁ ++ midR := by
        intro hh
        rcases List.mem_append.mp hh with hh | hh
        · exact hm1 hh
        · exact hmR1 hh
      have ht₂ : ']' ∉ t₂ := fun hh => hpo2 (hb ▸ List.mem_append_left _ hh)
      unfold runFrom
      cases hres : resolveCites docs s (findAllArticles (mid₁ ++ midR)) with
      | error e =>
        rw [processToken_close_error docs hist s t (pt ++ '[' :: mid₁) pt (mid₁ ++ midR) t₂ e
          (Or.inl hrefne) hT hshape hmmid ht₂ hne hres]
      | ok p =>
        obtain ⟨ns, s'⟩ := p
        rw [processToken_close_resolved docs hist s t (pt ++ '[' :: mid₁) pt (mid₁ ++ midR) t₂
          ns s' (Or.inl hrefne) hT hshape hmmid ht₂ hne hres]
        show runFrom docs ⟨hist ++ (pt ++ ['[']) ++ ordsStr ns ++ (']' :: t₂), [], s'⟩ ts = _
        have hpass : ∀ u ∈ ts, '[' ∉ u := by
          intro u hu hx
          exact hpo1 (hb ▸ List.mem_append_right _ (List.mem_flatten.mpr ⟨u, hu, hx⟩))
        rw [runFrom_passthrough docs ts _ s' hpass]
        rw [hb]
        simp [List.append_assoc]
    · obtain ⟨m₂, hm, hr⟩ := append_eq_split_right hflat hT
      have hrefne : pt ++ '[' :: mid₁ ≠ [] := by simp
      unfold runFrom
      rw [processToken_bufferCont docs hist s t (pt ++ '[' :: mid₁) hrefne hT]
      show runFrom docs ⟨hist, (pt ++ '[' :: mid₁) ++ t, s⟩ ts = _
      have hassoc : (pt ++ '[' :: mid₁) ++ t = pt ++ '[' :: (mid₁ ++ t) := by
        simp [List.append_assoc]
      rw [hassoc]
      have h1 : '[' ∉ mid₁ ++ t := by
        intro hh
        rcases List.mem_append.mp hh with hh | hh
        · exact hm1 hh
        · exact hmR1 (hm ▸ List.mem_append_left _ hh)
      have h2 : '[' ∉ m₂ := fun hh => hmR1 (hm ▸ List.mem_append_right _ hh)
      have h3 : ']' ∉ m₂ := fun hh => hmR2 (hm ▸ List.mem_append_right _ hh)
      have hne' : (mid₁ ++ t) ++ m₂ ≠ [] := by
        rw [List.append_assoc, ← hm]
        exact hne
      rw [ih hist pt (mid₁ ++ t) m₂ post s h1 h2 h3 hpo1 hpo2 hne' hr]
      rw [show (mid₁ ++ t) ++ m₂ = mid₁ ++ midR by rw [List.append_assoc, ← hm]]

/-- From the passthrough state, an input whose total text is
`preR ++ "[" ++ mid ++ "]" ++ post` (all three parts bracket-free, `mid`
non-empty) runs to the same canonical outcome for every chunking. -/
theorem runFrom_singleMarker (docs : List Document) (ts : List (List Char)) :
    ∀ (hist preR mid post : List Char) (s : Sources),
    '[' ∉ preR → ']' ∉ preR →
    '[' ∉ mid → ']' ∉ mid →
    '[' ∉ post → ']' ∉ post →
    mid ≠ [] →
    ts.flatten = preR ++ '[' :: (mid ++ ']' :: post) →
    runFrom docs ⟨hist, [], s⟩ ts =
      match resolveCites docs s (findAllArticles mid) with
      | .error e => .error e
      | .ok (ns, s') =>
        .ok ⟨hist ++ (preR ++ ['[']) ++ ordsStr ns ++ (']' :: post), [], s'⟩ := by
  induction ts with
  | nil =>
    intro hist preR mid post s _ _ _ _ _ _ _ hflat
    simp at hflat
  | cons t ts ih =>
    intro hist preR mid post s hp1 hp2 hm1 hm2 hq1 hq2 hne hflat
    rw [List.flatten_cons] at hflat
    by_cases hT : '[' ∈ t
    · obtain ⟨t₂, ht, hb⟩ := append_eq_split_left hflat hp1 hT
      by_cases hT2 : ']' ∈ t
      · have hT2' : ']' ∈ t₂ := by
          rw [ht] at hT2
          rcases List.mem_append.mp hT2 with hh | hh
          · exact absurd hh hp2
          · rcases List.mem_cons.mp hh with hh | hh
            · exact absurd hh (by decide)
            · exact hh
        obtain ⟨t₃, ht₃, hb₃⟩ := append_eq_split_left hb.symm hm2 hT2'
        have hshape : ([] : List Char) ++ t = preR ++ '[' :: (mid ++ ']' :: t₃) := by
          rw [List.nil_append, ht, ht₃]
        have ht₃' : ']' ∉ t₃ := fun hh => hq2 (hb₃ ▸ List.mem_append_left _ hh)
        unfold runFrom
        cases hres : resolveCites docs s (findAllArticles mid) with
        | error e =>
          rw [processToken_close_error docs hist s t [] preR mid t₃ e
            (Or.inr hT) hT2 hshape hm1 ht₃' hne hres]
        | ok p =>
          obtain ⟨ns, s'⟩ := p
          rw [processToken_close_resolved docs hist s t [] preR mid t₃
            ns s' (Or.inr hT) hT2 hshape hm1 ht₃' hne hres]
          show runFrom docs ⟨hist ++ (preR ++ ['[']) ++ ordsStr ns ++ (']' :: t₃), [], s'⟩ ts = _
          have hpass : ∀ u ∈ ts, '[' ∉ u := by
            intro u hu hx
            exact hq1 (hb₃ ▸ List.mem_append_right _ (List.mem_flatten.mpr ⟨u, hu, hx⟩))
          rw [runFrom_passthrough docs ts _ s' hpass]
          rw [hb₃]
          simp [List.append_assoc]
      · have ht₂' : ']' ∉ t₂ := by
          intro hh
          exact hT2 (ht ▸ List.mem_append_right _ (List.mem_cons_of_mem _ hh))
        obtain ⟨m₂, hm', hr'⟩ := append_eq_split_right hb.symm ht₂'
        unfold runFrom
        rw [processToken_bufferStart docs hist s t hT hT2]
        show runFrom docs ⟨hist, t, s⟩ ts = _
        rw [ht]
        have h1 : '[' ∉ t₂ := fun hh => hm1 (hm' ▸ List.mem_append_left _ hh)
        have h2 : '[' ∉ m₂ := fun hh => hm1 (hm' ▸ List.mem_append_right _ hh)
        have h3 : ']' ∉ m₂ := fun hh => hm2 (hm' ▸ List.mem_append_right _ hh)
        have hne' : t₂ ++ m₂ ≠ [] := by
          rw [← hm']
          exact hne
        rw [runFrom_buffering docs ts hist preR t₂ m₂ post s h1 h2 h3 hq1 hq2 hne' hr']
        rw [show t₂ ++ m₂ = mid from hm'.symm]
    · obtain ⟨p₂, hp', hr'⟩ := append_eq_split_right hflat hT
      unfold runFrom
      rw [processToken_emit docs hist s t hT]
      show runFrom docs ⟨hist ++ t, [], s⟩ ts = _
      have h1 : '[' ∉ p₂ := fun hh => hp1 (hp' ▸ List.mem_append_right _ hh)
      have h2 : ']' ∉ p₂ := fun hh => hp2 (hp' ▸ List.mem_append_right _ hh)
      rw [ih (hist ++ t) p₂ mid post s h1 h2 hm1 hm2 hq1 hq2 hne hr']
      cases hres : resolveCites docs s (findAllArticles mid) with
      | error e => rfl
      | ok p =>
        obtain ⟨ns, s'⟩ := p
        simp [hp', List.append_assoc]

/-- C4 (amended): the rewrite is chunk-boundary-insensitive for inputs
containing at most one bracketed region: if the total input text is
`pre ++ "[" ++ mid ++ "]" ++ post` with `pre`, `mid`, `post` free of both
bracket characters and `mid` non-empty, then every chunking of it produces
exactly the outcome of feeding it as a single token. With two or more
markers this fails: a chunk spanning the end of one marker and the start of
material for another changes the output. -/
theorem c4_single_marker_chunk_invariant (docs : List Document) (s0 : Sources)
    (pre mid post : List Char) (ts : List (List Char))
    (hp1 : '[' ∉ pre) (hp2 : ']' ∉ pre) (hm1 : '[' ∉ mid) (hm2 : ']' ∉ mid)
    (hq1 : '[' ∉ post) (hq2 : ']' ∉ post) (hne : mid ≠ [])
    (hflat : ts.flatten = pre ++ '[' :: (mid ++ ']' :: post)) :
    runStream docs ts s0 =
      runStream docs [pre ++ '[' :: (mid ++ ']' :: post)] s0 := by
  have h1 := runFrom_singleMarker docs ts [] pre mid post s0
    hp1 hp2 hm1 hm2 hq1 hq2 hne hflat
  have h2 := runFrom_singleMarker docs [pre ++ '[' :: (mid ++ ']' :: post)] [] pre mid post s0
    hp1 hp2 hm1 hm2 hq1 hq2 hne (by simp)
  rw [runStream, runStream, h1, h2]

/-- Witness for C4 (amended): a two-chunk split of `"a [ARTICLE 1] b"` agrees
with the single-token run. -/
theorem c4_single_marker_chunk_invariant_witness :
    runStream [⟨"d0"⟩] [chars "a [ART", chars "ICLE 1] b"] emptySources =
      runStream [⟨"d0"⟩] [chars "a [ARTICLE 1] b"] emptySources :=
  c4_single_marker_chunk_invariant [⟨"d0"⟩] emptySources
    (chars "a ") (chars "ARTICLE 1") (chars " b")
    [chars "a [ART", chars "ICLE 1] b"]
    (by decide) (by decide) (by decide) (by decide) (by decide) (by decide)
    (by decide) (by decide)

end NewsRag
